import Mathlib

namespace BatchCert

/-! ### Definitions -/

/-!
Verification of the batch certificate generation pipeline
(`supabase/functions/generate-certificates/index.ts`, the Deno edge
function referred to below as "the handler").

The development has three layers:

1. A shallow embedding of the placeholder substitution that the handler
   performs on `batch.template.template_content`:
   `htmlContent.replace(new RegExp('{{key}}', 'g'), String(value))`
   folded over `Object.entries(certificate.certificate_data)`.
   Strings are modelled as `List Char`; the global regex replace is
   modelled by `regexReplace`, which follows ECMAScript semantics on the
   reachable pattern/replacement space: the replacement string goes
   through GetSubstitution (the dollar escapes for the matched text, the
   text before and the text after a match, and the literal dollar), and
   a `.` in the key matches any non-line-terminator character. The model
   is exact for keys whose characters are regex literals or `.`; keys
   containing other regex metacharacters are outside its domain. For
   `plainKey` keys (alphanumerics and underscores) and dollar-free
   replacements, `regexReplace` provably coincides with purely literal
   global replacement (`replaceAll`), on which the positive theorems are
   built.
2. A shallow embedding of the per-record processing loop and the final
   batch update of the handler (`runBatch`), with the external
   collaborators (record store, object storage, clock) supplied as an
   explicit environment `Env` of oracle results.
3. Theorems settling the claims, with witnesses/counterexamples on
   concrete inputs.
-/

/-!
The handler's orchestration is embedded as a function of an explicit
environment of oracle results for its external calls (record store
reads/writes, object storage, clock). Failures of calls are `Option String`
error messages, mirroring the supabase client's `{ data, error }` results;
`Except` is used for the combined batch-with-template lookup.
-/

/-- The character `{` (written numerically to keep marker syntax explicit). -/
def lbrace : Char := Char.ofNat 123

/-- The character `}`. -/
def rbrace : Char := Char.ofNat 125

/-- Characters that are safe inside a placeholder key: alphanumerics and
underscore.  For such keys `new RegExp('{{key}}', 'g')` matches exactly the
literal marker text, so the literal model below is exact. -/
def plainChar (c : Char) : Bool := c.isAlphanum || c == '_'

/-- A key all of whose characters are `plainChar`. -/
def plainKey (k : List Char) : Bool := k.all plainChar

/-- A string containing no brace characters. -/
def braceFree (s : List Char) : Bool := s.all (fun c => !(c == lbrace || c == rbrace))

/-- Scalar values of `certificate_data` (the spec's key-to-scalar mapping:
string, number or boolean). Numbers are modelled as integers. -/
inductive JsonValue where
  | str (s : String)
  | num (n : Int)
  | bool (b : Bool)
deriving DecidableEq

/-- `String(value)` of JavaScript on the scalar values above: strings verbatim,
numbers and booleans in canonical textual form. -/
def display : JsonValue → List Char
  | .str s => s.toList
  | .num n => (toString n).toList
  | .bool b => (if b then "true" else "false").toList

/-- The marker text of a key: two opening braces, the key, two closing braces. -/
def marker (k : List Char) : List Char := lbrace :: lbrace :: (k ++ [rbrace, rbrace])

/-- Fuel-driven global literal replacement: scan left to right, replace each
(leftmost, non-overlapping) occurrence of `p` by `r` and continue after it.
Structural recursion on the fuel keeps the function kernel-computable. -/
def replaceAllAux (p r : List Char) : Nat → List Char → List Char
  | 0, s => s
  | _ + 1, [] => []
  | fuel + 1, c :: cs =>
    if p.isPrefixOf (c :: cs) then r ++ replaceAllAux p r fuel (cs.drop (p.length - 1))
    else c :: replaceAllAux p r fuel cs

/-- Global literal replacement of `p` by `r` in `s`: the purely literal
scanning core. `regexReplace` below, the embedding of the handler's
`String.replace` call, reduces to this exactly when the pattern has no
wildcard characters and the replacement has no `$` escape (proved by
`regexReplace_eq_replaceAll`). -/
def replaceAll (p r s : List Char) : List Char := replaceAllAux p r s.length s

/-- The character `$` (36): starts an ECMAScript replacement escape. -/
def dollarChar : Char := Char.ofNat 36

/-- The character `&` (38): in `$&`, the matched substring. -/
def ampChar : Char := Char.ofNat 38

/-- The backquote character (96): in a `$`-escape, the text before the
match. -/
def backquoteChar : Char := Char.ofNat 96

/-- The single-quote character (39): in a `$`-escape, the text after the
match. -/
def squoteChar : Char := Char.ofNat 39

/-- The character `.` (46): the one regex metacharacter the pattern model
interprets (any character except line terminators). -/
def dotChar : Char := Char.ofNat 46

/-- A string with no `$` character: its ECMAScript GetSubstitution is
itself. -/
def dollarFree (s : List Char) : Bool := s.all (fun c => !(c == dollarChar))

/-- One pattern character against one subject character: `.` matches any
character except the ECMAScript line terminators (LF, CR, LS, PS); every
other character matches literally. This models the compiled
`new RegExp('{{' + key + '}}')` for keys whose characters are regex
literals or `.`; keys containing other metacharacters (`*+?()[]\\^$|` or
quantifier braces) are outside the model. -/
def matchChar (p d : Char) : Bool :=
  if p = dotChar then
    !(d == Char.ofNat 10 || d == Char.ofNat 13 || d == Char.ofNat 8232 || d == Char.ofNat 8233)
  else p == d

/-- Whether the (fixed-length) pattern matches a prefix of the subject. -/
def matchesPat : List Char → List Char → Bool
  | [], _ => true
  | _ :: _, [] => false
  | p :: ps, d :: ds => matchChar p d && matchesPat ps ds

/-- ECMAScript GetSubstitution for a string replacement argument: `$$` is a
literal `$`, `$&` the matched text, a backquote escape the subject text
before the match, a quote escape the subject text after the match; any
other `$`-sequence is literal (the handler's patterns have no capture
groups, so `$n` and `$<` never substitute). -/
def getSubstitution (matched before after : List Char) : List Char → List Char
  | [] => []
  | [c] => if c = dollarChar then [dollarChar] else [c]
  | c :: d :: rest =>
    if c = dollarChar then
      if d = dollarChar then dollarChar :: getSubstitution matched before after rest
      else if d = ampChar then matched ++ getSubstitution matched before after rest
      else if d = backquoteChar then before ++ getSubstitution matched before after rest
      else if d = squoteChar then after ++ getSubstitution matched before after rest
      else dollarChar :: d :: getSubstitution matched before after rest
    else c :: getSubstitution matched before after (d :: rest)

/-- The scan of a global replace: left to right over the original subject,
each (leftmost, non-overlapping) pattern match is replaced by the
GetSubstitution of the replacement string — with `before` the original
subject text already scanned and `after` the original subject text following
the match — and the scan resumes after the match. -/
def regexReplaceAux (pat rep : List Char) : List Char → Nat → List Char → List Char
  | _, 0, s => s
  | _, _ + 1, [] => []
  | before, fuel + 1, c :: cs =>
    if matchesPat pat (c :: cs) then
      getSubstitution ((c :: cs).take pat.length) before ((c :: cs).drop pat.length) rep ++
        regexReplaceAux pat rep (before ++ (c :: cs).take pat.length) fuel
          ((c :: cs).drop pat.length)
    else c :: regexReplaceAux pat rep (before ++ [c]) fuel cs

/-- The embedding of line 56,
`htmlContent.replace(new RegExp(placeholder, 'g'), String(value))`:
global replace of the compiled placeholder pattern with the ECMAScript
string-replacement semantics (`$`-escapes interpreted, `.` in the key a
wildcard). Exact for keys whose characters are regex literals or `.`. -/
def regexReplace (pat rep s : List Char) : List Char := regexReplaceAux pat rep [] s.length s

/-- Whether the pattern matches anywhere in the subject (the test a further
replace pass would perform). -/
def hasMatch (pat : List Char) : List Char → Bool
  | [] => matchesPat pat []
  | c :: cs => matchesPat pat (c :: cs) || hasMatch pat cs

/-- One entry of the `Object.entries(certificate.certificate_data).forEach`
loop: replace every match of the entry's compiled placeholder by the
substitution of its value text. -/
def substOne (s : List Char) (e : List Char × JsonValue) : List Char :=
  regexReplace (marker e.1) (display e.2) s

/-- The handler's full placeholder substitution: fold `substOne` over the
data entries in their order. -/
def substitute (d : List (List Char × JsonValue)) (s : List Char) : List Char :=
  d.foldl substOne s

/-- `startsWith p s`: `p` is a leading segment of `s`. -/
def startsWith (p s : List Char) : Prop := ∃ t, s = p ++ t

/-- Boolean occurrence test: `p` occurs as a contiguous substring of the
second argument. -/
def hasSub (p : List Char) : List Char → Bool
  | [] => p.isEmpty
  | c :: cs => p.isPrefixOf (c :: cs) || hasSub p cs

/-- A template token: a literal piece of text or a placeholder marker.
`renderT` below maps token lists to the raw template text the handler
actually operates on; well-formed token lists (brace-free literals, plain
keys) describe exactly the templates whose braces all belong to markers. -/
inductive Token where
  | lit (s : List Char)
  | mark (k : List Char)
deriving DecidableEq

def Token.render : Token → List Char
  | .lit s => s
  | .mark k => marker k

def renderT : List Token → List Char
  | [] => []
  | t :: ts => t.render ++ renderT ts

def Token.wf : Token → Bool
  | .lit s => braceFree s
  | .mark k => plainKey k

/-- Effect of one substitution pass (key `k`, value `v`) on a token. -/
def Token.applyOne (k : List Char) (v : JsonValue) : Token → Token
  | .lit s => .lit s
  | .mark k' => if k' = k then .lit (display v) else .mark k'

/-- First binding of a key in the data mapping (`Object.entries` yields each
key once, so the first binding is the only one). -/
def findVal (k : List Char) : List (List Char × JsonValue) → Option JsonValue
  | [] => none
  | e :: es => if e.1 = k then some e.2 else findVal k es

/-- Net effect of the whole substitution fold on a token. -/
def Token.applyData (d : List (List Char × JsonValue)) : Token → Token
  | .lit s => .lit s
  | .mark k =>
    match findVal k d with
    | some v => .lit (display v)
    | none => .mark k

/-- A `certificates` table row (only the fields the handler touches). -/
structure Certificate where
  id : Nat
  batch_id : Nat
  certificate_data : Option (List (List Char × JsonValue))
  certificate_url : Option String
  status : String
  error_message : Option String
deriving DecidableEq

/-- A `certificate_batches` row (fields of the `CertificateBatch` interface
relevant to the pipeline; timestamps as abstract counters). -/
structure CertificateBatch where
  id : Nat
  user_id : Nat
  template_id : Nat
  batch_name : String
  total_certificates : Nat
  generated_certificates : Nat
  status : String
  batch_zip_url : Option String
  error_message : Option String
  created_at : Nat
  updated_at : Nat
deriving DecidableEq

/-- A `certificate_templates` row (just the body the handler renders). -/
structure CertificateTemplate where
  id : Nat
  template_content : List Char
deriving DecidableEq

/-- Environment of oracle results for one invocation of the handler.
Per-record failure oracles are keyed by certificate id. -/
structure Env where
  lookupResult : Except String (CertificateBatch × CertificateTemplate)
  certTable : List Certificate
  certsQueryError : Option String
  uploadError : Nat → Option String
  publicUrlOf : Nat → String
  updateCertError : Nat → Option String
  markFailedError : Nat → Option String
  batchUpdateError : Option String
  now : Nat

/-- The JSON response of the handler: `{success, processed, total, batchId}`
on the 200 path, `{error}` on the 500 path. -/
inductive Response where
  | ok (processed total batchId : Nat)
  | err (msg : String)
deriving DecidableEq

/-- Observable outcome of a run: the response, the certificates table after
all committed row updates, the batch row as written by the final update (if
that update committed), and the list of published files. -/
structure RunOut where
  response : Response
  table : List Certificate
  finalBatch : Option CertificateBatch
  uploads : List (String × List Char)
deriving DecidableEq

/-- Rendering of one record: substitute its data into the template body;
a null/absent `certificate_data` skips substitution entirely. -/
def renderContent (tc : List Char) (c : Certificate) : List Char :=
  match c.certificate_data with
  | some d => substitute d tc
  | none => tc

/-- The deterministic storage key: `certificate_${certificate.id}.html`. -/
def certFileName (c : Certificate) : String :=
  "certificate_" ++ toString c.id ++ ".html"

/-- The catch block of the per-record loop: issue the `status='failed'`
update. Its error is ignored by the handler, so a failing write commits
nothing. -/
def markFailed (env : Env) (c : Certificate) (msg : String) : Option Certificate :=
  match env.markFailedError c.id with
  | some _ => none
  | none => some { c with status := "failed", error_message := some msg }

/-- One iteration of the per-record loop: render, upload, get the public
URL, update the record; on any failure fall into the catch block. Returns
the committed row write (if any), the success flag (whether the id was
pushed onto `processedCertificates`), and the published files. -/
def processRecord (env : Env) (tc : List Char) (c : Certificate) :
    Option Certificate × Bool × List (String × List Char) :=
  let html := renderContent tc c
  match env.uploadError c.id with
  | some e => (markFailed env c e, false, [])
  | none =>
    match env.updateCertError c.id with
    | some e => (markFailed env c e, false, [(certFileName c, html)])
    | none =>
      (some { c with status := "generated", certificate_url := some (env.publicUrlOf c.id) },
        true, [(certFileName c, html)])

/-- The `for (const certificate of certificates)` loop: row writes in order,
the list of processed ids, and all published files. -/
def runLoop (env : Env) (tc : List Char) : List Certificate →
    List (Option Certificate) × List Nat × List (String × List Char)
  | [] => ([], [], [])
  | c :: cs =>
    let pr := processRecord env tc c
    let rest := runLoop env tc cs
    (pr.1 :: rest.1, (if pr.2.1 then [c.id] else []) ++ rest.2.1, pr.2.2 ++ rest.2.2)

/-- Commit one row write: `update(...).eq('id', c'.id)` sets the new row
value on every table row with that id. -/
def applyWrite (table : List Certificate) (w : Option Certificate) : List Certificate :=
  match w with
  | none => table
  | some c' => table.map fun r => if r.id = c'.id then c' else r

/-- Commit the loop's row writes in order. -/
def writeBack (table : List Certificate) (ws : List (Option Certificate)) : List Certificate :=
  ws.foldl applyWrite table

/-- The certificates query: rows of this batch currently in status
`pending` (`.eq('batch_id', batchId).eq('status', 'pending')`). -/
def pendingOf (env : Env) (batchId : Nat) : List Certificate :=
  env.certTable.filter fun c => c.batch_id == batchId && c.status == "pending"

/-- The whole handler body (minus CORS preflight): batch lookup, pending
query, per-record loop, final batch update, response. -/
def runBatch (env : Env) (batchId : Nat) : RunOut :=
  match env.lookupResult with
  | .error e => ⟨.err e, env.certTable, none, []⟩
  | .ok (batch, template) =>
    match env.certsQueryError with
    | some e => ⟨.err e, env.certTable, none, []⟩
    | none =>
      let pending := pendingOf env batchId
      let lr := runLoop env template.template_content pending
      let table' := writeBack env.certTable lr.1
      match env.batchUpdateError with
      | some e => ⟨.err e, table', none, lr.2.2⟩
      | none =>
        ⟨.ok lr.2.1.length pending.length batchId, table',
          some { batch with
            status := if lr.2.1.length = pending.length then "completed" else "partial",
            generated_certificates := lr.2.1.length,
            updated_at := env.now },
          lr.2.2⟩

/-- A record's processing succeeds iff neither its upload nor its status
update fails. -/
def recOk (env : Env) (c : Certificate) : Bool :=
  (env.uploadError c.id).isNone && (env.updateCertError c.id).isNone

/-- The message of the error caught at the per-record boundary. -/
def failMsg (env : Env) (c : Certificate) : String :=
  match env.uploadError c.id with
  | some e => e
  | none => (env.updateCertError c.id).getD ""

/-- Row lookup by certificate id. -/
def rowById (table : List Certificate) (i : Nat) : Option Certificate :=
  table.find? fun r => r.id == i

def noFail : Nat → Option String := fun _ => none

def wtpl : CertificateTemplate := ⟨1, ("Hello \x7b\x7bname\x7d\x7d").toList⟩

def wbatch : CertificateBatch := ⟨7, 1, 1, "June batch", 3, 0, "pending", none, none, 0, 0⟩

def wcert1 : Certificate :=
  ⟨1, 7, some [(("name").toList, JsonValue.str "Ana")], none, "pending", none⟩

def wcert2 : Certificate :=
  ⟨2, 7, some [(("name").toList, JsonValue.str "Bob")], none, "pending", none⟩

def wcert3 : Certificate := ⟨3, 7, none, none, "pending", none⟩

def wcert4 : Certificate := ⟨4, 7, none, some "done-url", "generated", none⟩

def wcert5 : Certificate := ⟨5, 8, none, none, "pending", none⟩

/-- A run over batch 7 with three pending records, where record 2's upload
fails and everything else succeeds. -/
def env1 : Env :=
  ⟨Except.ok (wbatch, wtpl), [wcert1, wcert2, wcert3, wcert4, wcert5], none,
    (fun i => if i == 2 then some "upload exploded" else none),
    (fun i => "url" ++ toString i), noFail, noFail, none, 42⟩

/-- A run over batch 7 with zero pending records. -/
def env0 : Env :=
  ⟨Except.ok (wbatch, wtpl), [wcert4, wcert5], none, noFail,
    (fun i => "url" ++ toString i), noFail, noFail, none, 42⟩

/-- Same as `env1` but the final batch update fails. -/
def env8 : Env := { env1 with batchUpdateError := some "batch update failed" }

/-- The spec's scenario template, in token form:
`"Hello {{name}}, you scored {{score}}"`. -/
def wts : List Token :=
  [Token.lit (("Hello ").toList), Token.mark (("name").toList),
    Token.lit ((", you scored ").toList), Token.mark (("score").toList)]

/-! ### Theorems -/

theorem replaceAllAux_nil (p r : List Char) (f : Nat) : replaceAllAux p r f [] = [] := by
  cases f <;> rfl

theorem replaceAllAux_fuel (p r : List Char) :
    ∀ f g s, s.length ≤ f → s.length ≤ g →
      replaceAllAux p r f s = replaceAllAux p r g s := by
  intro f
  induction f with
  | zero =>
    intro g s hf _
    have : s = [] := List.eq_nil_of_length_eq_zero (Nat.le_zero.mp hf)
    subst this
    rw [replaceAllAux_nil, replaceAllAux_nil]
  | succ f ih =>
    intro g s hf hg
    cases s with
    | nil => rw [replaceAllAux_nil, replaceAllAux_nil]
    | cons c cs =>
      cases g with
      | zero => exact absurd hg (by simp)
      | succ g =>
        show (if p.isPrefixOf (c :: cs) then
                r ++ replaceAllAux p r f (cs.drop (p.length - 1))
              else c :: replaceAllAux p r f cs) =
             (if p.isPrefixOf (c :: cs) then
                r ++ replaceAllAux p r g (cs.drop (p.length - 1))
              else c :: replaceAllAux p r g cs)
        have hcs : cs.length ≤ f := Nat.le_of_succ_le_succ hf
        have hcs' : cs.length ≤ g := Nat.le_of_succ_le_succ hg
        have hdrop : (cs.drop (p.length - 1)).length ≤ f :=
          le_trans (by simpa using Nat.sub_le cs.length (p.length - 1)) hcs
        have hdrop' : (cs.drop (p.length - 1)).length ≤ g :=
          le_trans (by simpa using Nat.sub_le cs.length (p.length - 1)) hcs'
        rw [ih _ _ hdrop hdrop', ih _ _ hcs hcs']

theorem replaceAll_nil (p r : List Char) : replaceAll p r [] = [] := rfl

theorem replaceAll_cons (p r : List Char) (c : Char) (cs : List Char) :
    replaceAll p r (c :: cs) =
      if p.isPrefixOf (c :: cs) then r ++ replaceAll p r (cs.drop (p.length - 1))
      else c :: replaceAll p r cs := by
  show (if p.isPrefixOf (c :: cs) then
          r ++ replaceAllAux p r cs.length (cs.drop (p.length - 1))
        else c :: replaceAllAux p r cs.length cs) = _
  rw [replaceAllAux_fuel p r cs.length (cs.drop (p.length - 1)).length (cs.drop (p.length - 1))
        (by simpa using Nat.sub_le cs.length (p.length - 1)) le_rfl]
  rfl

theorem isPrefixOf_iff (p : List Char) :
    ∀ s, p.isPrefixOf s = true ↔ startsWith p s := by
  induction p with
  | nil =>
    intro s
    constructor
    · intro _
      exact ⟨s, rfl⟩
    · intro _
      simp
  | cons a p ih =>
    intro s
    cases s with
    | nil =>
      constructor
      · intro h
        exact absurd h (by simp [List.isPrefixOf])
      · rintro ⟨t, ht⟩
        exact absurd ht (by simp)
    | cons b s =>
      show (a == b && p.isPrefixOf s) = true ↔ _
      constructor
      · intro h
        have hab : a = b := by
          have := (Bool.and_eq_true _ _).mp h
          exact eq_of_beq this.1
        obtain ⟨t, ht⟩ := (ih s).mp ((Bool.and_eq_true _ _).mp h).2
        exact ⟨t, by rw [ht, hab]; rfl⟩
      · rintro ⟨t, ht⟩
        rw [List.cons_append] at ht
        injection ht with h1 h2
        rw [Bool.and_eq_true]
        exact ⟨by simp [h1], (ih s).mpr ⟨t, h2⟩⟩

theorem startsWith_append_right {p s : List Char} (t : List Char)
    (h : startsWith p s) : startsWith p (s ++ t) := by
  obtain ⟨u, hu⟩ := h
  exact ⟨u ++ t, by rw [hu, List.append_assoc]⟩

/-- A leading segment of `A ++ B` either fits inside `A` or spills over:
it is `A` extended by a nonempty leading segment of `B`. -/
theorem startsWith_append_cases (p A B : List Char) (h : startsWith p (A ++ B)) :
    startsWith p A ∨ ∃ q, q ≠ [] ∧ p = A ++ q ∧ startsWith q B := by
  induction A generalizing p with
  | nil =>
    cases p with
    | nil => exact Or.inl ⟨[], rfl⟩
    | cons x p' => exact Or.inr ⟨x :: p', by simp, rfl, h⟩
  | cons a A' ih =>
    cases p with
    | nil => exact Or.inl ⟨a :: A', rfl⟩
    | cons x p' =>
      obtain ⟨t, ht⟩ := h
      rw [List.cons_append, List.cons_append] at ht
      injection ht with h1 h2
      rcases ih p' ⟨t, h2⟩ with ⟨u, hu⟩ | ⟨q, hq, hpq, hs⟩
      · exact Or.inl ⟨u, by rw [h1, hu]; rfl⟩
      · exact Or.inr ⟨q, hq, by rw [h1, hpq]; rfl, hs⟩

theorem plainChar_ne_braces {c : Char} (h : plainChar c = true) :
    c ≠ lbrace ∧ c ≠ rbrace := by
  constructor <;> rintro rfl <;> revert h <;> decide

theorem plainKey_mem_ne_braces {k : List Char} (hk : plainKey k = true)
    {c : Char} (hc : c ∈ k) : c ≠ lbrace ∧ c ≠ rbrace :=
  plainChar_ne_braces (List.all_eq_true.mp hk c hc)

theorem rbrace_ne_lbrace : rbrace ≠ lbrace := by decide

/-- No character of a key body (`k ++ ["}", "}"]`) is an opening brace,
for plain `k`. -/
theorem keyBody_mem_ne_lbrace {k : List Char} (hk : plainKey k = true)
    {d : Char} (hd : d ∈ k ++ [rbrace, rbrace]) : d ≠ lbrace := by
  rcases List.mem_append.mp hd with hd | hd
  · exact (plainKey_mem_ne_braces hk hd).1
  · rcases List.mem_cons.mp hd with rfl | hd
    · exact rbrace_ne_lbrace
    · rcases List.mem_cons.mp hd with rfl | hd
      · exact rbrace_ne_lbrace
      · exact absurd hd (List.not_mem_nil d)

/-- Key bodies of plain keys do not alias: if `k1 ++ "}}"` heads
`(k2 ++ "}}") ++ s` then `k1 = k2`. -/
theorem keyBody_startsWith (k1 : List Char) :
    ∀ k2 s, plainKey k1 = true → plainKey k2 = true →
      startsWith (k1 ++ [rbrace, rbrace]) ((k2 ++ [rbrace, rbrace]) ++ s) → k1 = k2 := by
  induction k1 with
  | nil =>
    intro k2 s _ hk2 h
    cases k2 with
    | nil => rfl
    | cons c k2' =>
      obtain ⟨t, ht⟩ := h
      simp only [List.nil_append, List.cons_append] at ht
      injection ht with h1 _
      exact absurd h1 (plainKey_mem_ne_braces hk2 (List.mem_cons_self c k2')).2
  | cons a k1' ih =>
    intro k2 s hk1 hk2 h
    cases k2 with
    | nil =>
      obtain ⟨t, ht⟩ := h
      simp only [List.nil_append, List.cons_append] at ht
      injection ht with h1 _
      exact absurd h1.symm (plainKey_mem_ne_braces hk1 (List.mem_cons_self a k1')).2
    | cons b k2' =>
      obtain ⟨t, ht⟩ := h
      simp only [List.cons_append, List.append_assoc] at ht
      injection ht with h1 h2
      have htail : k1' = k2' :=
        ih k2' s (List.all_eq_true.mpr fun c hc =>
            List.all_eq_true.mp hk1 c (List.mem_cons_of_mem a hc))
          (List.all_eq_true.mpr fun c hc =>
            List.all_eq_true.mp hk2 c (List.mem_cons_of_mem b hc))
          ⟨t, by simpa [List.append_assoc] using h2⟩
      rw [h1, htail]

/-- Marker aliasing: the marker of `k1` heads `marker k2 ++ s` only when the
keys agree. -/
theorem marker_startsWith_marker {k1 k2 : List Char} (hk1 : plainKey k1 = true)
    (hk2 : plainKey k2 = true) {s : List Char}
    (h : startsWith (marker k1) (marker k2 ++ s)) : k1 = k2 := by
  obtain ⟨t, ht⟩ := h
  simp only [marker, List.cons_append] at ht
  injection ht with _ h'
  injection h' with _ h''
  exact keyBody_startsWith k1 k2 s hk1 hk2 ⟨t, h''⟩

/-- No proper trailing piece of a marker can head a marker-headed string. -/
theorem marker_suffix_not_marker_headed {k k' : List Char}
    (hk : plainKey k = true) (hk' : plainKey k' = true)
    {X q : List Char} (hX : X ≠ []) (hq : q ≠ [])
    (hsplit : marker k' = X ++ q) (B : List Char) :
    ¬ startsWith q (marker k ++ B) := by
  intro hstart
  cases X with
  | nil => exact hX rfl
  | cons x X' =>
    simp only [marker, List.cons_append] at hsplit
    injection hsplit with _ h1
    cases X' with
    | nil =>
      rw [List.nil_append] at h1
      obtain ⟨t, ht⟩ := hstart
      rw [← h1] at ht
      simp only [marker, List.cons_append] at ht
      injection ht with _ h2
      -- h2 : lbrace :: ((k ++ [rbrace, rbrace]) ++ B) = (k' ++ [rbrace, rbrace]) ++ t
      cases k' with
      | nil =>
        simp only [List.nil_append, List.cons_append] at h2
        injection h2 with h3 _
        exact rbrace_ne_lbrace h3.symm
      | cons a k'' =>
        simp only [List.cons_append] at h2
        injection h2 with h3 _
        exact (plainKey_mem_ne_braces hk' (List.mem_cons_self a k'')).1 h3.symm
    | cons x2 X'' =>
      injection h1 with _ h4
      cases q with
      | nil => exact hq rfl
      | cons d q' =>
        have hd : d ∈ k' ++ [rbrace, rbrace] := by
          rw [h4]
          exact List.mem_append_right X'' (List.mem_cons_self d q')
        have hdne : d ≠ lbrace := keyBody_mem_ne_lbrace hk' hd
        obtain ⟨t, ht⟩ := hstart
        simp only [marker, List.cons_append] at ht
        injection ht with h5 _
        exact hdne h5.symm

/-- No marker can start at a proper interior split point of another
(different-keyed) marker. -/
theorem not_marker_at_split {k k' : List Char}
    (hk : plainKey k = true) (hk' : plainKey k' = true) (hne : k ≠ k')
    {X q : List Char} (hsplit : marker k = X ++ q) (hq : q ≠ []) (B : List Char) :
    ¬ startsWith (marker k') (q ++ B) := by
  intro hstart
  cases X with
  | nil =>
    rw [List.nil_append] at hsplit
    rw [← hsplit] at hstart
    exact hne.symm (marker_startsWith_marker hk' hk hstart)
  | cons x X' =>
    simp only [marker, List.cons_append] at hsplit
    injection hsplit with _ h1
    cases X' with
    | nil =>
      rw [List.nil_append] at h1
      obtain ⟨t, ht⟩ := hstart
      rw [← h1] at ht
      simp only [marker, List.cons_append] at ht
      injection ht with _ h2
      -- h2 : (k ++ [rbrace, rbrace]) ++ B = lbrace :: ((k' ++ [rbrace, rbrace]) ++ t)
      cases k with
      | nil =>
        simp only [List.nil_append, List.cons_append] at h2
        injection h2 with h3 _
        exact rbrace_ne_lbrace h3
      | cons a k'' =>
        simp only [List.cons_append] at h2
        injection h2 with h3 _
        exact (plainKey_mem_ne_braces hk (List.mem_cons_self a k'')).1 h3
    | cons x2 X'' =>
      injection h1 with _ h4
      cases q with
      | nil => exact hq rfl
      | cons d q' =>
        have hd : d ∈ k ++ [rbrace, rbrace] := by
          rw [h4]
          exact List.mem_append_right X'' (List.mem_cons_self d q')
        have hdne : d ≠ lbrace := keyBody_mem_ne_lbrace hk hd
        obtain ⟨t, ht⟩ := hstart
        simp only [marker, List.cons_append] at ht
        injection ht with h5 _
        exact hdne h5

/-- Scan-skip: if no nonempty trailing piece of `A` (joined with `B`) starts
an occurrence of `m`, the scan copies `A` verbatim. -/
theorem replaceAll_append_of_no_match (m v : List Char) :
    ∀ A B, (∀ X q, A = X ++ q → q ≠ [] → ¬ startsWith m (q ++ B)) →
      replaceAll m v (A ++ B) = A ++ replaceAll m v B := by
  intro A
  induction A with
  | nil => intro B _; rfl
  | cons a A' ih =>
    intro B h
    have hnp : m.isPrefixOf (a :: (A' ++ B)) = false := by
      cases hp : m.isPrefixOf (a :: (A' ++ B)) with
      | false => rfl
      | true =>
        exact absurd ((isPrefixOf_iff m _).mp hp) (h [] (a :: A') rfl (by simp))
    have : replaceAll m v ((a :: A') ++ B) = a :: replaceAll m v (A' ++ B) := by
      rw [List.cons_append, replaceAll_cons,
        if_neg (by rw [hnp]; exact Bool.false_ne_true)]
    rw [this, ih B fun X q hXq hq => h (a :: X) q (by rw [hXq]; rfl) hq]
    rfl

/-- Head match: when the pattern heads the string it is replaced and the
scan resumes after it. -/
theorem replaceAll_head (m v B : List Char) (hm : m ≠ []) :
    replaceAll m v (m ++ B) = v ++ replaceAll m v B := by
  cases m with
  | nil => exact absurd rfl hm
  | cons c m' =>
    rw [List.cons_append, replaceAll_cons, if_pos]
    · rw [List.length_cons, Nat.succ_sub_one, List.drop_left' (by rfl)]
    · exact (isPrefixOf_iff (c :: m') _).mpr ⟨B, by rw [List.cons_append]⟩

/-- A string with no occurrence of `m` is left unchanged. -/
theorem replaceAll_of_not_hasSub (m v : List Char) :
    ∀ s, hasSub m s = false → replaceAll m v s = s := by
  intro s
  induction s with
  | nil => intro _; rfl
  | cons c cs ih =>
    intro h
    have h' : m.isPrefixOf (c :: cs) = false ∧ hasSub m cs = false := by
      have := h
      simp only [hasSub, Bool.or_eq_false_iff] at this
      exact this
    rw [replaceAll_cons, if_neg (by simp [h'.1]), ih h'.2]

theorem marker_ne_nil (k : List Char) : marker k ≠ [] := by simp [marker]

theorem braceFree_mem {s : List Char} (hs : braceFree s = true) {c : Char}
    (hc : c ∈ s) : c ≠ lbrace ∧ c ≠ rbrace := by
  have := List.all_eq_true.mp hs c hc
  constructor <;> rintro rfl <;> simp at this

/-- A marker of a different plain key scans over a marker-headed string
without matching inside the marker. -/
theorem replaceAll_marker_headed {k k' : List Char} (hk : plainKey k = true)
    (hk' : plainKey k' = true) (hne : k ≠ k') (v B : List Char) :
    replaceAll (marker k') v (marker k ++ B) = marker k ++ replaceAll (marker k') v B :=
  replaceAll_append_of_no_match _ v (marker k) B fun _ q hXq hq =>
    not_marker_at_split hk hk' hne hXq hq B

/-- A marker scans over a brace-free literal without matching inside it. -/
theorem replaceAll_braceFree_headed {k' : List Char} (v s B : List Char)
    (hs : braceFree s = true) :
    replaceAll (marker k') v (s ++ B) = s ++ replaceAll (marker k') v B := by
  refine replaceAll_append_of_no_match _ v s B fun X q hXq hq hstart => ?_
  cases q with
  | nil => exact hq rfl
  | cons d q' =>
    have hd : d ∈ s := by
      rw [hXq]
      exact List.mem_append_right X (List.mem_cons_self d q')
    obtain ⟨t, ht⟩ := hstart
    simp only [marker, List.cons_append] at ht
    injection ht with h1 _
    exact (braceFree_mem hs hd).1 h1

/-- Replacing the marker of `k'` distributes over an interior marker of a
different plain key `k`: the foreign marker is preserved in place and the
two sides are processed independently. -/
theorem replaceAll_marker_frame_aux {k k' : List Char} (hk : plainKey k = true)
    (hk' : plainKey k' = true) (hne : k ≠ k') (v : List Char) :
    ∀ n A B, A.length ≤ n →
      replaceAll (marker k') v (A ++ (marker k ++ B)) =
        replaceAll (marker k') v A ++ (marker k ++ replaceAll (marker k') v B) := by
  intro n
  induction n with
  | zero =>
    intro A B hA
    have : A = [] := List.eq_nil_of_length_eq_zero (Nat.le_zero.mp hA)
    subst this
    simp only [List.nil_append, replaceAll_nil]
    exact replaceAll_marker_headed hk hk' hne v B
  | succ n ih =>
    intro A B hA
    cases A with
    | nil =>
      simp only [List.nil_append, replaceAll_nil]
      exact replaceAll_marker_headed hk hk' hne v B
    | cons a A' =>
      cases hp : (marker k').isPrefixOf (a :: (A' ++ (marker k ++ B))) with
      | true =>
        have hsw : startsWith (marker k') ((a :: A') ++ (marker k ++ B)) :=
          (isPrefixOf_iff _ _).mp hp
        rcases startsWith_append_cases _ (a :: A') (marker k ++ B) hsw with
          ⟨u, hu⟩ | ⟨q, hq, hm'q, hqs⟩
        · have hl := congrArg List.length hu
          simp only [List.length_cons, List.length_append] at hl
          have hm1 : 1 ≤ (marker k').length := by simp [marker]
          have hA' : A'.length + 1 ≤ n + 1 := by
            simpa using hA
          have hlen : u.length ≤ n := by omega
          rw [show ((a :: A') ++ (marker k ++ B)) = marker k' ++ (u ++ (marker k ++ B)) by
                rw [hu, List.append_assoc],
              replaceAll_head _ v _ (marker_ne_nil k'), hu,
              replaceAll_head _ v u (marker_ne_nil k'), ih u B hlen, List.append_assoc]
        · exact absurd hqs
            (marker_suffix_not_marker_headed hk hk' (by simp) hq hm'q B)
      | false =>
        have h1 : replaceAll (marker k') v ((a :: A') ++ (marker k ++ B)) =
            a :: replaceAll (marker k') v (A' ++ (marker k ++ B)) := by
          rw [List.cons_append, replaceAll_cons,
            if_neg (by rw [hp]; exact Bool.false_ne_true)]
        have h2 : (marker k').isPrefixOf (a :: A') = false := by
          cases hp2 : (marker k').isPrefixOf (a :: A') with
          | false => rfl
          | true =>
            have hsw2 : startsWith (marker k') ((a :: A') ++ (marker k ++ B)) :=
              startsWith_append_right _ ((isPrefixOf_iff _ _).mp hp2)
            have h3 : (marker k').isPrefixOf (a :: (A' ++ (marker k ++ B))) = true :=
              (isPrefixOf_iff _ _).mpr hsw2
            rw [hp] at h3
            exact absurd h3 Bool.false_ne_true
        have h4 : replaceAll (marker k') v (a :: A') =
            a :: replaceAll (marker k') v A' := by
          rw [replaceAll_cons, if_neg (by rw [h2]; exact Bool.false_ne_true)]
        have hA' : A'.length ≤ n := by
          have := hA
          simp only [List.length_cons] at this
          omega
        rw [h1, ih A' B hA', h4]
        rfl

theorem replaceAll_marker_frame {k k' : List Char} (hk : plainKey k = true)
    (hk' : plainKey k' = true) (hne : k ≠ k') (v A B : List Char) :
    replaceAll (marker k') v (A ++ (marker k ++ B)) =
      replaceAll (marker k') v A ++ (marker k ++ replaceAll (marker k') v B) :=
  replaceAll_marker_frame_aux hk hk' hne v A.length A B le_rfl

theorem getSubstitution_of_dollarFree (matched before after : List Char) :
    ∀ rep, dollarFree rep = true → getSubstitution matched before after rep = rep := by
  intro rep
  induction rep with
  | nil => intro _; rfl
  | cons c rest ih =>
    intro h
    have hc : ¬ c = dollarChar := by
      have h1 := List.all_eq_true.mp h c (List.mem_cons_self c rest)
      simpa using h1
    have hrest : dollarFree rest = true := List.all_eq_true.mpr fun x hx =>
      List.all_eq_true.mp h x (List.mem_cons_of_mem c hx)
    cases rest with
    | nil =>
      simp only [getSubstitution]
      rw [if_neg hc]
    | cons d rest' =>
      simp only [getSubstitution]
      rw [if_neg hc, ih hrest]

theorem matchesPat_of_no_dot (pat : List Char) (hp : ∀ c ∈ pat, c ≠ dotChar) :
    ∀ s, matchesPat pat s = pat.isPrefixOf s := by
  induction pat with
  | nil => intro s; cases s <;> rfl
  | cons p ps ih =>
    intro s
    cases s with
    | nil => rfl
    | cons d ds =>
      show (matchChar p d && matchesPat ps ds) = (p == d && ps.isPrefixOf ds)
      rw [show matchChar p d = (p == d) by
            unfold matchChar
            rw [if_neg (hp p (List.mem_cons_self p ps))],
        ih (fun c hc => hp c (List.mem_cons_of_mem p hc)) ds]

theorem regexReplaceAux_eq_replaceAllAux (pat rep : List Char)
    (hpat : ∀ c ∈ pat, c ≠ dotChar) (hrep : dollarFree rep = true) (hne : pat ≠ []) :
    ∀ fuel before s, regexReplaceAux pat rep before fuel s = replaceAllAux pat rep fuel s := by
  intro fuel
  induction fuel with
  | zero => intro before s; rfl
  | succ fuel ih =>
    intro before s
    cases s with
    | nil => rfl
    | cons c cs =>
      show (if matchesPat pat (c :: cs) then _ else _) = (if pat.isPrefixOf (c :: cs) then _ else _)
      rw [matchesPat_of_no_dot pat hpat (c :: cs)]
      cases hp : pat.isPrefixOf (c :: cs) with
      | true =>
        rw [if_pos rfl, if_pos rfl,
          getSubstitution_of_dollarFree ((c :: cs).take pat.length) before
            ((c :: cs).drop pat.length) rep hrep]
        cases pat with
        | nil => exact absurd rfl hne
        | cons p ps =>
          rw [show (c :: cs).drop (p :: ps).length = cs.drop ((p :: ps).length - 1) by
                rw [List.length_cons, List.drop_succ_cons, Nat.add_sub_cancel],
            ih]
      | false =>
        rw [if_neg (by simp), if_neg (by simp), ih]

/-- On a pattern with no wildcard and a dollar-free replacement, the
ECMAScript replace is purely literal global replacement. -/
theorem regexReplace_eq_replaceAll (pat rep s : List Char)
    (hpat : ∀ c ∈ pat, c ≠ dotChar) (hrep : dollarFree rep = true) (hne : pat ≠ []) :
    regexReplace pat rep s = replaceAll pat rep s :=
  regexReplaceAux_eq_replaceAllAux pat rep hpat hrep hne s.length [] s

theorem marker_mem_ne_dot {k : List Char} (hk : plainKey k = true) :
    ∀ c ∈ marker k, c ≠ dotChar := by
  intro c hc
  unfold marker at hc
  rcases List.mem_cons.mp hc with rfl | hc
  · decide
  rcases List.mem_cons.mp hc with rfl | hc
  · decide
  rcases List.mem_append.mp hc with hc | hc
  · intro he
    have := List.all_eq_true.mp hk c hc
    rw [he] at this
    exact absurd this (by decide)
  rcases List.mem_cons.mp hc with rfl | hc
  · decide
  rcases List.mem_cons.mp hc with rfl | hc
  · decide
  exact absurd hc (List.not_mem_nil c)

/-- For a plain key and a dollar-free value text, a substitution pass is
literal global replacement of the marker. -/
theorem substOne_eq_replaceAll (s : List Char) (e : List Char × JsonValue)
    (hk : plainKey e.1 = true) (hv : dollarFree (display e.2) = true) :
    substOne s e = replaceAll (marker e.1) (display e.2) s :=
  regexReplace_eq_replaceAll (marker e.1) (display e.2) s (marker_mem_ne_dot hk) hv
    (marker_ne_nil e.1)

theorem regexReplaceAux_of_no_match (pat rep : List Char) :
    ∀ fuel before s, hasMatch pat s = false →
      regexReplaceAux pat rep before fuel s = s := by
  intro fuel
  induction fuel with
  | zero => intro before s _; rfl
  | succ fuel ih =>
    intro before s h
    cases s with
    | nil => rfl
    | cons c cs =>
      have h' : matchesPat pat (c :: cs) = false ∧ hasMatch pat cs = false := by
        have := h
        simp only [hasMatch, Bool.or_eq_false_iff] at this
        exact this
      show (if matchesPat pat (c :: cs) then _ else _) = _
      rw [if_neg (by rw [h'.1]; exact Bool.false_ne_true), ih (before ++ [c]) cs h'.2]

/-- A pattern that matches nowhere leaves the subject unchanged. -/
theorem regexReplace_of_no_match (pat rep s : List Char) (h : hasMatch pat s = false) :
    regexReplace pat rep s = s :=
  regexReplaceAux_of_no_match pat rep s.length [] s h

/-- Full substitution preserves, in place, any marker whose plain key is
absent from the data mapping (all data keys plain, value texts dollar-free). -/
theorem substitute_marker_frame (d : List (List Char × JsonValue)) (k : List Char)
    (hk : plainKey k = true)
    (hd : ∀ e ∈ d, plainKey e.1 = true ∧ dollarFree (display e.2) = true)
    (habs : ∀ e ∈ d, e.1 ≠ k) :
    ∀ A B, substitute d (A ++ (marker k ++ B)) =
      substitute d A ++ (marker k ++ substitute d B) := by
  induction d with
  | nil => intro A B; rfl
  | cons e d' ih =>
    intro A B
    have hke : plainKey e.1 = true := (hd e (List.mem_cons_self e d')).1
    have hve : dollarFree (display e.2) = true := (hd e (List.mem_cons_self e d')).2
    have hstep : substOne (A ++ (marker k ++ B)) e =
        substOne A e ++ (marker k ++ substOne B e) := by
      rw [substOne_eq_replaceAll (A ++ (marker k ++ B)) e hke hve,
        substOne_eq_replaceAll A e hke hve, substOne_eq_replaceAll B e hke hve]
      exact replaceAll_marker_frame hk hke
        (fun h => habs e (List.mem_cons_self e d') h.symm) (display e.2) A B
    show substitute d' (substOne (A ++ (marker k ++ B)) e) = _
    rw [hstep]
    exact ih (fun e' he' => hd e' (List.mem_cons_of_mem e he'))
      (fun e' he' => habs e' (List.mem_cons_of_mem e he')) (substOne A e) (substOne B e)

theorem substOne_renderT (k : List Char) (v : JsonValue) (hk : plainKey k = true) :
    ∀ ts : List Token, (∀ t ∈ ts, t.wf = true) →
      replaceAll (marker k) (display v) (renderT ts) =
        renderT (ts.map (Token.applyOne k v)) := by
  intro ts
  induction ts with
  | nil => intro _; rfl
  | cons t ts ih =>
    intro hts
    have hts' : ∀ t' ∈ ts, t'.wf = true := fun t' ht' =>
      hts t' (List.mem_cons_of_mem t ht')
    cases t with
    | lit s =>
      show replaceAll (marker k) (display v) (s ++ renderT ts) = s ++ renderT (ts.map _)
      rw [replaceAll_braceFree_headed _ s _ (hts (.lit s) (List.mem_cons_self _ _)),
        ih hts']
    | mark k' =>
      have hk' : plainKey k' = true := hts (.mark k') (List.mem_cons_self _ _)
      by_cases hkk : k' = k
      · subst hkk
        show replaceAll (marker k') (display v) (marker k' ++ renderT ts) = _
        rw [replaceAll_head _ _ _ (marker_ne_nil k'), ih hts']
        simp [Token.applyOne, renderT, Token.render]
      · show replaceAll (marker k) (display v) (marker k' ++ renderT ts) = _
        rw [replaceAll_marker_headed hk' hk hkk (display v) (renderT ts), ih hts']
        simp [Token.applyOne, renderT, Token.render, hkk]

theorem applyOne_wf {k : List Char} {v : JsonValue} (hv : braceFree (display v) = true)
    {t : Token} (ht : t.wf = true) : (Token.applyOne k v t).wf = true := by
  cases t with
  | lit s => exact ht
  | mark k' =>
    show (if k' = k then Token.lit (display v) else Token.mark k').wf = true
    by_cases h : k' = k
    · rw [if_pos h]
      exact hv
    · rw [if_neg h]
      exact ht

theorem applyData_applyOne (e : List Char × JsonValue)
    (d' : List (List Char × JsonValue)) (t : Token) :
    Token.applyData d' (Token.applyOne e.1 e.2 t) = Token.applyData (e :: d') t := by
  cases t with
  | lit s => rfl
  | mark k =>
    show Token.applyData d' (if k = e.1 then Token.lit (display e.2) else Token.mark k) =
      Token.applyData (e :: d') (Token.mark k)
    by_cases h : k = e.1
    · rw [if_pos h]
      show Token.lit (display e.2) = Token.applyData (e :: d') (Token.mark k)
      simp [Token.applyData, findVal, h.symm]
    · rw [if_neg h]
      have hfv : findVal k (e :: d') = findVal k d' := by
        show (if e.1 = k then some e.2 else findVal k d') = findVal k d'
        exact if_neg fun hh => h hh.symm
      show Token.applyData d' (Token.mark k) = Token.applyData (e :: d') (Token.mark k)
      simp only [Token.applyData, hfv]

/-- The full substitution fold, on a well-formed token template, rewrites
each token independently by `Token.applyData`: every marker of a present key
becomes its value's display text, every other token is preserved. -/
theorem substitute_renderT (d : List (List Char × JsonValue)) :
    ∀ ts : List Token, (∀ t ∈ ts, t.wf = true) →
      (∀ e ∈ d, plainKey e.1 = true ∧ braceFree (display e.2) = true ∧
        dollarFree (display e.2) = true) →
      substitute d (renderT ts) = renderT (ts.map (Token.applyData d)) := by
  induction d with
  | nil =>
    intro ts _ _
    show renderT ts = renderT (ts.map _)
    rw [show Token.applyData [] = id from funext fun t => by cases t <;> rfl, List.map_id]
  | cons e d' ih =>
    intro ts hts hd
    show substitute d' (substOne (renderT ts) e) = _
    rw [substOne_eq_replaceAll (renderT ts) e (hd e (List.mem_cons_self e d')).1
        (hd e (List.mem_cons_self e d')).2.2,
      substOne_renderT e.1 e.2 (hd e (List.mem_cons_self e d')).1 ts hts,
      ih (ts.map (Token.applyOne e.1 e.2))
        (fun t' ht' => by
          obtain ⟨t, ht, rfl⟩ := List.mem_map.mp ht'
          exact applyOne_wf (hd e (List.mem_cons_self e d')).2.1 (hts t ht))
        (fun e' he' => hd e' (List.mem_cons_of_mem e he')),
      List.map_map]
    have hfun : (Token.applyData d' ∘ Token.applyOne e.1 e.2) = Token.applyData (e :: d') :=
      funext fun t => applyData_applyOne e d' t
    rw [hfun]

theorem findVal_perm (k : List Char) :
    ∀ {d d' : List (List Char × JsonValue)}, d.Perm d' →
      (d.map Prod.fst).Nodup → findVal k d = findVal k d' := by
  intro d d' h
  induction h with
  | nil => intro _; rfl
  | cons x h ih =>
    intro hnd
    show (if x.1 = k then some x.2 else findVal k _) =
      (if x.1 = k then some x.2 else findVal k _)
    by_cases hx : x.1 = k
    · rw [if_pos hx, if_pos hx]
    · rw [if_neg hx, if_neg hx]
      refine ih ?_
      rw [List.map_cons] at hnd
      exact hnd.of_cons
  | swap x y l =>
    intro hnd
    rw [List.map_cons, List.map_cons] at hnd
    have hxy : y.1 ≠ x.1 := by
      rcases List.nodup_cons.mp hnd with ⟨hy1, _⟩
      intro he
      exact hy1 (by rw [he]; exact List.mem_cons_self _ _)
    show (if y.1 = k then some y.2 else if x.1 = k then some x.2 else findVal k l) =
      (if x.1 = k then some x.2 else if y.1 = k then some y.2 else findVal k l)
    by_cases hy : y.1 = k <;> by_cases hx : x.1 = k
    · exact absurd (hy.trans hx.symm) hxy
    · rw [if_pos hy, if_neg hx, if_pos hy]
    · rw [if_neg hy, if_pos hx, if_pos hx]
    · rw [if_neg hy, if_neg hx, if_neg hx, if_neg hy]
  | trans h1 h2 ih1 ih2 =>
    intro hnd
    exact (ih1 hnd).trans (ih2 (((h1.map Prod.fst).nodup_iff).mp hnd))

/-- When no data key's placeholder pattern matches anywhere in a string, the
substitution fold leaves it unchanged. -/
theorem substitute_id_of_no_match (d : List (List Char × JsonValue)) :
    ∀ X, (∀ e ∈ d, hasMatch (marker e.1) X = false) → substitute d X = X := by
  induction d with
  | nil => intro X _; rfl
  | cons e d' ih =>
    intro X h
    show substitute d' (substOne X e) = X
    rw [show substOne X e = X from
      regexReplace_of_no_match (marker e.1) (display e.2) X (h e (List.mem_cons_self e d'))]
    exact ih X fun e' he' => h e' (List.mem_cons_of_mem e he')

/-- Order-independence core: on well-formed token templates, substitution by
a data mapping with distinct plain keys and brace- and dollar-free values
yields the same output for any permutation of the entries. -/
theorem substitute_perm_renderT (d d' : List (List Char × JsonValue))
    (hperm : d.Perm d') (hnd : (d.map Prod.fst).Nodup) (ts : List Token)
    (hts : ∀ t ∈ ts, t.wf = true)
    (hd : ∀ e ∈ d, plainKey e.1 = true ∧ braceFree (display e.2) = true ∧
      dollarFree (display e.2) = true) :
    substitute d (renderT ts) = substitute d' (renderT ts) := by
  rw [substitute_renderT d ts hts hd,
    substitute_renderT d' ts hts fun e he => hd e (hperm.mem_iff.mpr he)]
  have happ : Token.applyData d = Token.applyData d' := by
    funext tk
    cases tk with
    | lit s => rfl
    | mark k =>
      simp only [Token.applyData, findVal_perm k hperm hnd]
  rw [happ]

theorem processRecord_id (env : Env) (tc : List Char) (c : Certificate) :
    ∀ x, (processRecord env tc c).1 = some x → x.id = c.id := by
  intro x
  unfold processRecord markFailed
  cases env.uploadError c.id with
  | some e =>
    cases env.markFailedError c.id with
    | some _ => intro h; exact absurd h (by simp)
    | none => intro h; injection h with h'; rw [← h']
  | none =>
    cases env.updateCertError c.id with
    | some e =>
      cases env.markFailedError c.id with
      | some _ => intro h; exact absurd h (by simp)
      | none => intro h; injection h with h'; rw [← h']
    | none => intro h; injection h with h'; rw [← h']

theorem processRecord_ok (env : Env) (tc : List Char) (c : Certificate) :
    (processRecord env tc c).2.1 = recOk env c := by
  unfold processRecord recOk
  cases env.uploadError c.id <;> cases env.updateCertError c.id <;> rfl

theorem runLoop_writes (env : Env) (tc : List Char) :
    ∀ cs, (runLoop env tc cs).1 = cs.map fun c => (processRecord env tc c).1 := by
  intro cs
  induction cs with
  | nil => rfl
  | cons c cs ih =>
    show (processRecord env tc c).1 :: (runLoop env tc cs).1 = _
    rw [ih]
    rfl

theorem runLoop_ids (env : Env) (tc : List Char) :
    ∀ cs, (runLoop env tc cs).2.1 = (cs.filter (recOk env)).map fun c => c.id := by
  intro cs
  induction cs with
  | nil => rfl
  | cons c cs ih =>
    show (if (processRecord env tc c).2.1 then [c.id] else []) ++ (runLoop env tc cs).2.1 = _
    rw [processRecord_ok, ih, List.filter_cons]
    cases h : recOk env c <;> simp

theorem runLoop_uploads_mem (env : Env) (tc : List Char) :
    ∀ cs c, c ∈ cs → env.uploadError c.id = none →
      (certFileName c, renderContent tc c) ∈ (runLoop env tc cs).2.2 := by
  intro cs
  induction cs with
  | nil => intro c hc; exact absurd hc (List.not_mem_nil c)
  | cons c0 cs ih =>
    intro c hc hup
    show _ ∈ (processRecord env tc c0).2.2 ++ (runLoop env tc cs).2.2
    rcases List.mem_cons.mp hc with rfl | hmem
    · apply List.mem_append_left
      unfold processRecord
      rw [hup]
      cases env.updateCertError c.id <;> exact List.mem_cons_self _ _
    · exact List.mem_append_right _ (ih c hmem hup)

theorem rowById_cons (r : Certificate) (t : List Certificate) (i : Nat) :
    rowById (r :: t) i = if r.id = i then some r else rowById t i := by
  unfold rowById
  rw [List.find?_cons]
  cases hbe : (r.id == i) with
  | true => rw [if_pos (eq_of_beq hbe)]
  | false => rw [if_neg (ne_of_beq_false hbe)]

theorem applyWrite_cons (r : Certificate) (t : List Certificate) (x : Certificate) :
    applyWrite (r :: t) (some x) = (if r.id = x.id then x else r) :: applyWrite t (some x) := rfl

theorem rowById_applyWrite_other (w : Option Certificate) (i : Nat)
    (h : ∀ x, w = some x → x.id ≠ i) :
    ∀ table, rowById (applyWrite table w) i = rowById table i := by
  cases w with
  | none => intro table; rfl
  | some x =>
    have hx : x.id ≠ i := h x rfl
    intro table
    induction table with
    | nil => rfl
    | cons r t ih =>
      rw [applyWrite_cons, rowById_cons, rowById_cons]
      by_cases hrx : r.id = x.id
      · rw [if_pos hrx, if_neg hx, ih, if_neg fun hh => hx (hrx.symm.trans hh)]
      · rw [if_neg hrx]
        by_cases hr : r.id = i
        · rw [if_pos hr, if_pos hr]
        · rw [if_neg hr, if_neg hr, ih]

theorem rowById_applyWrite_hit (x : Certificate) :
    ∀ table, (∃ r ∈ table, r.id = x.id) →
      rowById (applyWrite table (some x)) x.id = some x := by
  intro table
  induction table with
  | nil =>
    rintro ⟨r, hr, _⟩
    exact absurd hr (List.not_mem_nil r)
  | cons r t ih =>
    intro hrow
    by_cases hr : r.id = x.id
    · rw [applyWrite_cons, if_pos hr, rowById_cons, if_pos rfl]
    · rw [applyWrite_cons, if_neg hr, rowById_cons, if_neg hr]
      apply ih
      rcases hrow with ⟨r0, hr0, hid⟩
      rcases List.mem_cons.mp hr0 with rfl | hmem
      · exact absurd hid hr
      · exact ⟨r0, hmem, hid⟩

theorem applyWrite_ids (w : Option Certificate) :
    ∀ table, (applyWrite table w).map (fun r => r.id) = table.map fun r => r.id := by
  cases w with
  | none => intro table; rfl
  | some x =>
    intro table
    induction table with
    | nil => rfl
    | cons r t ih =>
      rw [applyWrite_cons]
      show (if r.id = x.id then x else r).id :: _ = r.id :: _
      by_cases hr : r.id = x.id
      · rw [if_pos hr, ih, hr]
      · rw [if_neg hr, ih]

theorem rowById_writeBack_other (i : Nat) :
    ∀ ws table, (∀ w ∈ ws, ∀ x, w = some x → x.id ≠ i) →
      rowById (writeBack table ws) i = rowById table i := by
  intro ws
  induction ws with
  | nil => intro table _; rfl
  | cons w ws ih =>
    intro table h
    show rowById (writeBack (applyWrite table w) ws) i = _
    rw [ih (applyWrite table w) fun w' hw' => h w' (List.mem_cons_of_mem w hw')]
    exact rowById_applyWrite_other w i (h w (List.mem_cons_self w ws)) table

theorem rowById_writeBack_hit (x : Certificate) :
    ∀ pre, ∀ post : List (Option Certificate), ∀ table,
      (∀ w ∈ pre, ∀ y, w = some y → y.id ≠ x.id) →
      (∀ w ∈ post, ∀ y, w = some y → y.id ≠ x.id) →
      (∃ r ∈ table, r.id = x.id) →
      rowById (writeBack table (pre ++ (some x :: post))) x.id = some x := by
  intro pre
  induction pre with
  | nil =>
    intro post table _ hpost hrow
    show rowById (writeBack (applyWrite table (some x)) post) x.id = some x
    rw [rowById_writeBack_other x.id post _ hpost]
    exact rowById_applyWrite_hit x table hrow
  | cons w pre ih =>
    intro post table hpre hpost hrow
    show rowById (writeBack (applyWrite table w) (pre ++ (some x :: post))) x.id = some x
    apply ih post (applyWrite table w)
      (fun w' hw' => hpre w' (List.mem_cons_of_mem w hw')) hpost
    rcases hrow with ⟨r, hr, hid⟩
    have hmem : x.id ∈ (applyWrite table w).map fun r => r.id := by
      rw [applyWrite_ids]
      exact List.mem_map.mpr ⟨r, hr, hid⟩
    rcases List.mem_map.mp hmem with ⟨r', hr', hid'⟩
    exact ⟨r', hr', hid'⟩

theorem rowById_self :
    ∀ table, (table.map (fun r => r.id)).Nodup → ∀ r ∈ table,
      rowById table r.id = some r := by
  intro table
  induction table with
  | nil => intro _ r hr; exact absurd hr (List.not_mem_nil r)
  | cons h t ih =>
    intro hnd r hr
    rw [List.map_cons, List.nodup_cons] at hnd
    rw [rowById_cons]
    rcases List.mem_cons.mp hr with rfl | hmem
    · rw [if_pos rfl]
    · have hh : ¬ h.id = r.id := by
        intro he
        exact hnd.1 (he ▸ List.mem_map.mpr ⟨r, hmem, rfl⟩)
      rw [if_neg hh]
      exact ih hnd.2 r hmem

theorem mem_pending {env : Env} {bid : Nat} {c : Certificate}
    (hc : c ∈ pendingOf env bid) :
    c ∈ env.certTable ∧ c.batch_id = bid ∧ c.status = "pending" := by
  have h := List.mem_filter.mp hc
  refine ⟨h.1, ?_, ?_⟩
  · have := h.2
    simp only [Bool.and_eq_true, beq_iff_eq] at this
    exact this.1
  · have := h.2
    simp only [Bool.and_eq_true, beq_iff_eq] at this
    exact this.2

theorem pending_ids_nodup (env : Env) (bid : Nat)
    (hnd : (env.certTable.map (fun r => r.id)).Nodup) :
    ((pendingOf env bid).map (fun r => r.id)).Nodup :=
  List.Nodup.sublist (List.Sublist.map _ (List.filter_sublist env.certTable)) hnd

theorem runBatch_table (env : Env) (bid : Nat) (b : CertificateBatch)
    (tpl : CertificateTemplate) (hL : env.lookupResult = Except.ok (b, tpl))
    (hQ : env.certsQueryError = none) :
    (runBatch env bid).table =
      writeBack env.certTable (runLoop env tpl.template_content (pendingOf env bid)).1 := by
  simp only [runBatch, hL, hQ]
  cases env.batchUpdateError <;> rfl

theorem runBatch_uploads (env : Env) (bid : Nat) (b : CertificateBatch)
    (tpl : CertificateTemplate) (hL : env.lookupResult = Except.ok (b, tpl))
    (hQ : env.certsQueryError = none) :
    (runBatch env bid).uploads =
      (runLoop env tpl.template_content (pendingOf env bid)).2.2 := by
  simp only [runBatch, hL, hQ]
  cases env.batchUpdateError <;> rfl

theorem runBatch_response_ok (env : Env) (bid : Nat) (b : CertificateBatch)
    (tpl : CertificateTemplate) (hL : env.lookupResult = Except.ok (b, tpl))
    (hQ : env.certsQueryError = none) (hB : env.batchUpdateError = none) :
    (runBatch env bid).response =
      Response.ok ((pendingOf env bid).filter (recOk env)).length
        (pendingOf env bid).length bid := by
  simp only [runBatch, hL, hQ, hB]
  rw [runLoop_ids env tpl.template_content (pendingOf env bid), List.length_map]

theorem runBatch_finalBatch (env : Env) (bid : Nat) (b : CertificateBatch)
    (tpl : CertificateTemplate) (hL : env.lookupResult = Except.ok (b, tpl))
    (hQ : env.certsQueryError = none) (hB : env.batchUpdateError = none) :
    (runBatch env bid).finalBatch = some { b with
      status := if ((pendingOf env bid).filter (recOk env)).length =
          (pendingOf env bid).length then "completed" else "partial",
      generated_certificates := ((pendingOf env bid).filter (recOk env)).length,
      updated_at := env.now } := by
  simp only [runBatch, hL, hQ, hB]
  rw [runLoop_ids env tpl.template_content (pendingOf env bid), List.length_map]

theorem runBatch_err_lookup (env : Env) (bid : Nat) (e : String)
    (hL : env.lookupResult = Except.error e) :
    runBatch env bid = ⟨.err e, env.certTable, none, []⟩ := by
  simp only [runBatch, hL]

theorem runBatch_err_update (env : Env) (bid : Nat) (b : CertificateBatch)
    (tpl : CertificateTemplate) (e : String)
    (hL : env.lookupResult = Except.ok (b, tpl)) (hQ : env.certsQueryError = none)
    (hB : env.batchUpdateError = some e) :
    runBatch env bid = ⟨.err e,
      writeBack env.certTable (runLoop env tpl.template_content (pendingOf env bid)).1,
      none, (runLoop env tpl.template_content (pendingOf env bid)).2.2⟩ := by
  simp only [runBatch, hL, hQ, hB]

/-- The final table row of a pending record is exactly its own
`processRecord` outcome (its committed write, or its old value when no write
committed), independently of every other record's outcome. -/
theorem table_row_of_pending (env : Env) (bid : Nat) (b : CertificateBatch)
    (tpl : CertificateTemplate) (hL : env.lookupResult = Except.ok (b, tpl))
    (hQ : env.certsQueryError = none)
    (hnd : (env.certTable.map (fun r => r.id)).Nodup)
    (c : Certificate) (hc : c ∈ pendingOf env bid) :
    rowById (runBatch env bid).table c.id =
      match (processRecord env tpl.template_content c).1 with
      | some x => some x
      | none => some c := by
  have hctab : c ∈ env.certTable := (mem_pending hc).1
  rw [runBatch_table env bid b tpl hL hQ, runLoop_writes]
  obtain ⟨pre, post, hsplit⟩ := List.append_of_mem hc
  have hpnd : ((pendingOf env bid).map fun r => r.id).Nodup := pending_ids_nodup env bid hnd
  rw [hsplit, List.map_append, List.map_cons] at hpnd
  rw [hsplit, List.map_append, List.map_cons]
  have hnd2 := List.nodup_append.mp hpnd
  have hprene : ∀ c0 ∈ pre, c0.id ≠ c.id := by
    intro c0 hc0 he
    exact hnd2.2.2 (List.mem_map.mpr ⟨c0, hc0, rfl⟩) (he ▸ List.mem_cons_self _ _)
  have hpostne : ∀ c0 ∈ post, c0.id ≠ c.id := by
    intro c0 hc0 he
    exact (List.nodup_cons.mp hnd2.2.1).1 (he ▸ List.mem_map.mpr ⟨c0, hc0, rfl⟩)
  cases hw : (processRecord env tpl.template_content c).1 with
  | some x =>
    have hxid : x.id = c.id := processRecord_id env tpl.template_content c x hw
    have hhit :
        rowById (writeBack env.certTable
          ((pre.map fun c0 => (processRecord env tpl.template_content c0).1) ++
            (some x :: post.map fun c0 => (processRecord env tpl.template_content c0).1))) x.id
          = some x := by
      apply rowById_writeBack_hit x _ _ env.certTable
      · intro w hwm y hwy
        rcases List.mem_map.mp hwm with ⟨c0, hc0, rfl⟩
        have : y.id = c0.id := processRecord_id env tpl.template_content c0 y hwy
        rw [this, hxid]
        exact hprene c0 hc0
      · intro w hwm y hwy
        rcases List.mem_map.mp hwm with ⟨c0, hc0, rfl⟩
        have : y.id = c0.id := processRecord_id env tpl.template_content c0 y hwy
        rw [this, hxid]
        exact hpostne c0 hc0
      · exact ⟨c, hctab, hxid.symm⟩
    rw [hxid] at hhit
    exact hhit
  | none =>
    have hall : ∀ w ∈ ((pre.map fun c0 => (processRecord env tpl.template_content c0).1) ++
        (none :: post.map fun c0 => (processRecord env tpl.template_content c0).1)),
        ∀ y, w = some y → y.id ≠ c.id := by
      intro w hwm y hwy
      rcases List.mem_append.mp hwm with hwm | hwm
      · rcases List.mem_map.mp hwm with ⟨c0, hc0, rfl⟩
        have : y.id = c0.id := processRecord_id env tpl.template_content c0 y hwy
        rw [this]
        exact hprene c0 hc0
      · rcases List.mem_cons.mp hwm with rfl | hwm
        · exact absurd hwy (by simp)
        · rcases List.mem_map.mp hwm with ⟨c0, hc0, rfl⟩
          have : y.id = c0.id := processRecord_id env tpl.template_content c0 y hwy
          rw [this]
          exact hpostne c0 hc0
    rw [rowById_writeBack_other c.id _ env.certTable hall]
    exact rowById_self env.certTable hnd c hctab

theorem id_inj :
    ∀ table : List Certificate, (table.map (fun r => r.id)).Nodup →
      ∀ a ∈ table, ∀ b ∈ table, a.id = b.id → a = b := by
  intro table
  induction table with
  | nil => intro _ a ha; exact absurd ha (List.not_mem_nil a)
  | cons h t ih =>
    intro hnd a ha b hb hid
    rw [List.map_cons, List.nodup_cons] at hnd
    rcases List.mem_cons.mp ha with rfl | hat
    · rcases List.mem_cons.mp hb with rfl | hbt
      · rfl
      · exact absurd (hid ▸ List.mem_map.mpr ⟨b, hbt, rfl⟩) hnd.1
    · rcases List.mem_cons.mp hb with rfl | hbt
      · exact absurd (hid ▸ List.mem_map.mpr ⟨a, hat, rfl⟩) hnd.1
      · exact ih hnd.2 a hat b hbt hid

theorem processRecord_env_eq (env env' : Env)
    (h1 : env.uploadError = env'.uploadError)
    (h2 : env.updateCertError = env'.updateCertError)
    (h3 : env.markFailedError = env'.markFailedError)
    (h4 : env.publicUrlOf = env'.publicUrlOf) (tc : List Char) (c : Certificate) :
    processRecord env tc c = processRecord env' tc c := by
  unfold processRecord markFailed
  rw [h1, h2, h3, h4]

theorem runLoop_env_eq (env env' : Env)
    (h1 : env.uploadError = env'.uploadError)
    (h2 : env.updateCertError = env'.updateCertError)
    (h3 : env.markFailedError = env'.markFailedError)
    (h4 : env.publicUrlOf = env'.publicUrlOf) (tc : List Char) :
    ∀ cs, runLoop env tc cs = runLoop env' tc cs := by
  intro cs
  induction cs with
  | nil => rfl
  | cons c cs ih =>
    show (_, _, _) = (_, _, _)
    rw [processRecord_env_eq env env' h1 h2 h3 h4 tc c, ih]

theorem processRecord_fail (env : Env) (tc : List Char) (c : Certificate)
    (hfail : recOk env c = false) (hmark : env.markFailedError c.id = none) :
    (processRecord env tc c).1 =
      some { c with status := "failed", error_message := some (failMsg env c) } := by
  unfold processRecord markFailed failMsg
  cases hu : env.uploadError c.id with
  | some e =>
    rw [hmark]
  | none =>
    cases hup : env.updateCertError c.id with
    | some e =>
      rw [hmark]
      rfl
    | none =>
      exfalso
      unfold recOk at hfail
      rw [hu, hup] at hfail
      exact absurd hfail (by simp)

theorem processRecord_success (env : Env) (tc : List Char) (c : Certificate)
    (hup : env.uploadError c.id = none) (hupd : env.updateCertError c.id = none) :
    (processRecord env tc c).1 =
      some { c with status := "generated", certificate_url := some (env.publicUrlOf c.id) } := by
  unfold processRecord
  rw [hup, hupd]

theorem renderContent_none (tc : List Char) (c : Certificate)
    (h : c.certificate_data = none) : renderContent tc c = tc := by
  unfold renderContent
  rw [h]

/-- Claim C1: per-record failure isolation. If publishing or the record
status update fails for a pending record, the orchestrator catches it at the
per-record boundary: the record's row ends the run with status `failed` and
the failure's message stored (shown here under the assumption that the
failed-marking write itself commits; the handler ignores that write's error),
every other pending record's final row is exactly its own independent
outcome (the loop continues), and the error never propagates: whenever
lookup, query and finalization succeed the caller still gets the success
summary. -/
theorem claim1_per_record_isolation (env : Env) (bid : Nat) (b : CertificateBatch)
    (tpl : CertificateTemplate) (c : Certificate)
    (hL : env.lookupResult = Except.ok (b, tpl)) (hQ : env.certsQueryError = none)
    (hnd : (env.certTable.map (fun r => r.id)).Nodup)
    (hc : c ∈ pendingOf env bid) (hfail : recOk env c = false)
    (hmark : env.markFailedError c.id = none) :
    rowById (runBatch env bid).table c.id =
      some { c with status := "failed", error_message := some (failMsg env c) } ∧
    (∀ c2 ∈ pendingOf env bid, c2.id ≠ c.id →
      rowById (runBatch env bid).table c2.id =
        match (processRecord env tpl.template_content c2).1 with
        | some x => some x
        | none => some c2) ∧
    (env.batchUpdateError = none →
      (runBatch env bid).response = Response.ok
        ((pendingOf env bid).filter (recOk env)).length (pendingOf env bid).length bid) := by
  refine ⟨?_, ?_, ?_⟩
  · rw [table_row_of_pending env bid b tpl hL hQ hnd c hc,
      processRecord_fail env tpl.template_content c hfail hmark]
  · intro c2 hc2 _
    exact table_row_of_pending env bid b tpl hL hQ hnd c2 hc2
  · intro hB
    exact runBatch_response_ok env bid b tpl hL hQ hB

/-- Claim C1 witness: in `env1`, record 2's upload fails; it ends failed with
the stored message while the run still reports success (2 of 3 processed). -/
theorem claim1_witness :
    rowById (runBatch env1 7).table 2 =
      some { wcert2 with status := "failed", error_message := some "upload exploded" } ∧
    (runBatch env1 7).response = Response.ok 2 3 7 :=
  ⟨(claim1_per_record_isolation env1 7 wbatch wtpl wcert2 rfl rfl (by decide) (by decide)
      (by decide) rfl).1,
    (claim1_per_record_isolation env1 7 wbatch wtpl wcert2 rfl rfl (by decide) (by decide)
      (by decide) rfl).2.2 rfl⟩

/-- Claim C2 counterexample: the claim as stated is false on the code in two
places. A run with zero pending records is finalized as `completed`, not
`partial`, although it fails the claim's `N > 0` requirement; and a run of 3
pending records with 2 successes writes `generated_certificates = 2` (the
success count `S`), not `N - S = 1` as the claim's "in particular" clause
demands. -/
theorem claim2_counterexample :
    ((pendingOf env0 7).length = 0 ∧
      (runBatch env0 7).finalBatch.map (fun x => x.status) = some "completed" ∧
      ¬ (runBatch env0 7).finalBatch.map (fun x => x.status) = some "partial") ∧
    ((pendingOf env1 7).length = 3 ∧
      (runBatch env1 7).finalBatch.map (fun x => x.generated_certificates) = some 2 ∧
      ¬ (2 : Nat) = (pendingOf env1 7).length - 2) := by decide

/-- Claim C2 (amended): for a run attempting the `N` pending records of which
`S` succeed, the final batch update sets status `completed` iff `S = N`
(including the vacuous `N = 0` case), otherwise `partial`, and sets
`generated_certificates` to `S`, this run's success count only. -/
theorem claim2_batch_finalization (env : Env) (bid : Nat) (b : CertificateBatch)
    (tpl : CertificateTemplate) (hL : env.lookupResult = Except.ok (b, tpl))
    (hQ : env.certsQueryError = none) (hB : env.batchUpdateError = none) :
    ∃ b', (runBatch env bid).finalBatch = some b' ∧
      b'.generated_certificates = ((pendingOf env bid).filter (recOk env)).length ∧
      (b'.status = "completed" ↔
        ((pendingOf env bid).filter (recOk env)).length = (pendingOf env bid).length) ∧
      (b'.status = "partial" ↔
        ¬ ((pendingOf env bid).filter (recOk env)).length = (pendingOf env bid).length) := by
  refine ⟨_, runBatch_finalBatch env bid b tpl hL hQ hB, rfl, ?_, ?_⟩
  · show (if ((pendingOf env bid).filter (recOk env)).length = (pendingOf env bid).length
        then "completed" else "partial") = "completed" ↔ _
    by_cases h : ((pendingOf env bid).filter (recOk env)).length = (pendingOf env bid).length
    · rw [if_pos h]
      exact ⟨fun _ => h, fun _ => rfl⟩
    · rw [if_neg h]
      exact ⟨fun hc => absurd hc (by decide), fun hn => absurd hn h⟩
  · show (if ((pendingOf env bid).filter (recOk env)).length = (pendingOf env bid).length
        then "completed" else "partial") = "partial" ↔ _
    by_cases h : ((pendingOf env bid).filter (recOk env)).length = (pendingOf env bid).length
    · rw [if_pos h]
      exact ⟨fun hc => absurd hc (by decide), fun hn => absurd h hn⟩
    · rw [if_neg h]
      exact ⟨fun _ => h, fun _ => rfl⟩

/-- Claim C2 witness: in `env1` (3 pending, 2 succeed) the batch ends
`partial` with `generated_certificates = 2`. -/
theorem claim2_witness :
    (runBatch env1 7).finalBatch.map (fun x => x.status) = some "partial" ∧
    (runBatch env1 7).finalBatch.map (fun x => x.generated_certificates) = some 2 := by
  obtain ⟨b', hb', hgen, hcomp, hpart⟩ :=
    claim2_batch_finalization env1 7 wbatch wtpl rfl rfl rfl
  rw [hb']
  constructor
  · show some b'.status = some "partial"
    rw [hpart.mpr (by decide)]
  · show some b'.generated_certificates = some 2
    rw [hgen]
    decide

/-- Claim C3 counterexample: the claim as stated (every occurrence of
`{{k}}` in `T` is replaced in the output by `String(D[k])`, for every key of
`D`) is false on the code in two independent ways. With `T = "{{a}}"`
(exactly the marker of `a`) and `D = {a: "{{b}}", b: "X"}`, the later pass
for `b` rewrites the inserted text, so the output is `"X"`, not
`String(D[a]) = "{{b}}"`. And with the dollar-escape value
`D = {a: "$&"}`, the replacement re-inserts the matched text: the output is
`"{{a}}"` itself, not `String(D[a]) = "$&"`. -/
theorem claim3_counterexample :
    ("\x7b\x7ba\x7d\x7d").toList = marker (("a").toList) ∧
    substitute
        [(("a").toList, JsonValue.str "\x7b\x7bb\x7d\x7d"), (("b").toList, JsonValue.str "X")]
        (("\x7b\x7ba\x7d\x7d").toList) = ("X").toList ∧
    ¬ ("X").toList = display (JsonValue.str "\x7b\x7bb\x7d\x7d") ∧
    substitute [(("a").toList, JsonValue.str "$&")] (marker (("a").toList)) =
      marker (("a").toList) ∧
    ¬ marker (("a").toList) = display (JsonValue.str "$&") := by decide

/-- Claim C3 (amended): on templates whose braces all belong to markers of
plain keys (token form: brace-free literals and plain-key markers), and
mappings with plain keys and value strings free of brace and dollar
characters, the substitution rewrites every marker token of a key present in
`D` — every occurrence, not just the first — into the value's display string
(numbers and booleans in canonical textual form via `display`), and leaves
every other token unchanged. -/
theorem claim3_substitution_all_occurrences (d : List (List Char × JsonValue))
    (ts : List Token) (hts : ∀ t ∈ ts, t.wf = true)
    (hd : ∀ e ∈ d, plainKey e.1 = true ∧ braceFree (display e.2) = true ∧
      dollarFree (display e.2) = true) :
    substitute d (renderT ts) = renderT (ts.map (Token.applyData d)) :=
  substitute_renderT d ts hts hd

/-- Claim C3 witness: the spec scenario — template
`"Hello {{name}}, you scored {{score}}"` with `{name: "Ana", score: 95}`
renders to `"Hello Ana, you scored 95"`. -/
theorem claim3_witness :
    (∀ t ∈ wts, t.wf = true) ∧
    substitute [(("name").toList, JsonValue.str "Ana"), (("score").toList, JsonValue.num 95)]
      (renderT wts) = ("Hello Ana, you scored 95").toList :=
  ⟨by decide,
    (claim3_substitution_all_occurrences _ wts (by decide) (by decide)).trans (by decide)⟩

/-- Claim C4 counterexample: the claim as stated quantifies over every data
mapping, and fails on one whose key contains a regex metacharacter. With
`D = {".": "Z"}` (key `.` absent-key `k`), the compiled pattern `{{.}}`
matches the marker `{{k}}` of the absent key `k`, so that marker is
destroyed: the output is `"Z"` and contains no `{{k}}` at all. Moreover,
even with plain keys the in-place-preservation equation fails for
dollar-escape values: with `D = {a: "$'"}` on `{{a}}{{b}}` (`b` absent) the
escape duplicates the trailing context, giving `"{{b}}{{b}}"` where the
claim's in-place reading demands `"{{b}}"`. -/
theorem claim4_counterexample :
    (∀ e ∈ ([([dotChar], JsonValue.str "Z")] : List (List Char × JsonValue)),
      e.1 ≠ ("k").toList) ∧
    substitute [([dotChar], JsonValue.str "Z")]
        (([] : List Char) ++ (marker (("k").toList) ++ [])) = ("Z").toList ∧
    hasSub (marker (("k").toList)) (("Z").toList) = false ∧
    ¬ substitute [(("a").toList, JsonValue.str (String.mk [dollarChar, squoteChar]))]
        ((marker (("a").toList)) ++ (marker (("b").toList) ++ [])) =
      substitute [(("a").toList, JsonValue.str (String.mk [dollarChar, squoteChar]))]
          (marker (("a").toList)) ++
        (marker (("b").toList) ++
          substitute [(("a").toList, JsonValue.str (String.mk [dollarChar, squoteChar]))]
            []) := by decide

/-- Claim C4 (amended): absent-key passthrough holds for mappings all of
whose keys are plain (no regex metacharacters) and whose value strings
contain no dollar character: any marker whose plain key is absent from such
a mapping is preserved verbatim, in place, by the full substitution. -/
theorem claim4_absent_key_passthrough (d : List (List Char × JsonValue))
    (k A B : List Char) (hk : plainKey k = true)
    (hd : ∀ e ∈ d, plainKey e.1 = true ∧ dollarFree (display e.2) = true)
    (habs : ∀ e ∈ d, e.1 ≠ k) :
    substitute d (A ++ (marker k ++ B)) =
      substitute d A ++ (marker k ++ substitute d B) :=
  substitute_marker_frame d k hk hd habs A B

/-- Claim C4 witness: the spec scenario — same template with `score` missing
renders to `"Hello Ana, you scored {{score}}"`. -/
theorem claim4_witness :
    plainKey (("score").toList) = true ∧
    substitute [(("name").toList, JsonValue.str "Ana")]
        ((("Hello \x7b\x7bname\x7d\x7d, you scored ").toList) ++
          (marker (("score").toList) ++ [])) =
      ("Hello Ana, you scored \x7b\x7bscore\x7d\x7d").toList :=
  ⟨by decide,
    (claim4_absent_key_passthrough _ _ _ _ (by decide) (by decide) (by decide)).trans
      (by decide)⟩

/-- Claim C5 counterexample: substitution is not order-independent for
arbitrary data, in two independent ways. With `T = "{{a}}"` and the entries
`a: "{{b}}"`, `b: "X"`, processing `a` first yields `"X"` while the permuted
order yields `"{{b}}"`. And with the dollar-escape values `a: "$'x"`,
`b: "$'y"` on `T = "{{a}}{{b}}"` (distinct plain keys, brace-free values),
one order yields `"x{{b}}yxy"` and the other `"yxy"`, because the escape
inserts the text after the match, which depends on the processing order. -/
theorem claim5_counterexample :
    (([(("a").toList, JsonValue.str "\x7b\x7bb\x7d\x7d"), (("b").toList, JsonValue.str "X")] :
        List (List Char × JsonValue)).Perm
      [(("b").toList, JsonValue.str "X"), (("a").toList, JsonValue.str "\x7b\x7bb\x7d\x7d")] ∧
    ¬ substitute
        [(("a").toList, JsonValue.str "\x7b\x7bb\x7d\x7d"), (("b").toList, JsonValue.str "X")]
        (("\x7b\x7ba\x7d\x7d").toList) =
      substitute
        [(("b").toList, JsonValue.str "X"), (("a").toList, JsonValue.str "\x7b\x7bb\x7d\x7d")]
        (("\x7b\x7ba\x7d\x7d").toList)) ∧
    (([(("a").toList, JsonValue.str (String.mk [dollarChar, squoteChar, 'x'])),
        (("b").toList, JsonValue.str (String.mk [dollarChar, squoteChar, 'y']))] :
        List (List Char × JsonValue)).Perm
      [(("b").toList, JsonValue.str (String.mk [dollarChar, squoteChar, 'y'])),
        (("a").toList, JsonValue.str (String.mk [dollarChar, squoteChar, 'x']))] ∧
    ¬ substitute
        [(("a").toList, JsonValue.str (String.mk [dollarChar, squoteChar, 'x'])),
          (("b").toList, JsonValue.str (String.mk [dollarChar, squoteChar, 'y']))]
        (marker (("a").toList) ++ marker (("b").toList)) =
      substitute
        [(("b").toList, JsonValue.str (String.mk [dollarChar, squoteChar, 'y'])),
          (("a").toList, JsonValue.str (String.mk [dollarChar, squoteChar, 'x']))]
        (marker (("a").toList) ++ marker (("b").toList))) :=
  ⟨⟨List.Perm.swap _ _ [], by decide⟩, ⟨List.Perm.swap _ _ [], by decide⟩⟩

/-- Claim C5 (amended): order-independence holds on the safe domain — a
template whose braces all belong to markers of plain keys, a mapping with
pairwise-distinct plain keys and value strings free of brace and dollar
characters. There each replacement targets exactly the literal marker of its
key and inserts the value text literally, keys do not alias each other's
marker syntax, and the result is the same for every processing order. -/
theorem claim5_order_independence (d d' : List (List Char × JsonValue))
    (ts : List Token) (hperm : d.Perm d') (hnd : (d.map Prod.fst).Nodup)
    (hts : ∀ t ∈ ts, t.wf = true)
    (hd : ∀ e ∈ d, plainKey e.1 = true ∧ braceFree (display e.2) = true ∧
      dollarFree (display e.2) = true) :
    substitute d (renderT ts) = substitute d' (renderT ts) :=
  substitute_perm_renderT d d' hperm hnd ts hts hd

/-- Claim C5 witness: the scenario data in both orders renders the scenario
template identically. -/
theorem claim5_witness :
    (([(("name").toList, JsonValue.str "Ana"), (("score").toList, JsonValue.num 95)] :
        List (List Char × JsonValue)).map Prod.fst).Nodup ∧
    substitute [(("name").toList, JsonValue.str "Ana"), (("score").toList, JsonValue.num 95)]
        (renderT wts) =
      substitute [(("score").toList, JsonValue.num 95), (("name").toList, JsonValue.str "Ana")]
        (renderT wts) :=
  ⟨by decide,
    claim5_order_independence _ _ wts (List.Perm.swap _ _ []) (by decide) (by decide)
      (by decide)⟩

/-- Claim C6: idempotent rendering. The claim's caveat — the values do not
re-introduce new marker text — is formalized faithfully: after substituting
`D` into `T` once, no key's compiled placeholder pattern matches anywhere in
the output (`hasMatch` over the ECMAScript model, so text produced by
dollar escapes and text matched through a `.` wildcard both count). Under
exactly that condition a second substitution with the same `D` finds nothing
to replace and changes nothing. -/
theorem claim6_idempotent_rendering (d : List (List Char × JsonValue)) (T : List Char)
    (h : ∀ e ∈ d, hasMatch (marker e.1) (substitute d T) = false) :
    substitute d (substitute d T) = substitute d T :=
  substitute_id_of_no_match d (substitute d T) h

/-- Claim C6 witness: rendering `"Hello {{name}}"` with `{name: "Ana"}`
twice equals rendering it once. -/
theorem claim6_witness :
    (∀ e ∈ ([(("name").toList, JsonValue.str "Ana")] : List (List Char × JsonValue)),
      hasMatch (marker e.1)
        (substitute [(("name").toList, JsonValue.str "Ana")]
          (("Hello \x7b\x7bname\x7d\x7d").toList)) = false) ∧
    substitute [(("name").toList, JsonValue.str "Ana")]
        (substitute [(("name").toList, JsonValue.str "Ana")]
          (("Hello \x7b\x7bname\x7d\x7d").toList)) =
      substitute [(("name").toList, JsonValue.str "Ana")]
        (("Hello \x7b\x7bname\x7d\x7d").toList) :=
  ⟨by decide, claim6_idempotent_rendering _ _ (by decide)⟩

/-- Claim C7: pending-only selection. The run attempts exactly the rows of
this batch whose status is `pending` at run start (`pendingOf`): every other
table row — records of other batches and records already in a terminal
status such as `generated` or `failed` — is never modified by the run, and
the attempted total reported to the caller is the pending count. -/
theorem claim7_pending_only_selection (env : Env) (bid : Nat) (b : CertificateBatch)
    (tpl : CertificateTemplate) (hL : env.lookupResult = Except.ok (b, tpl))
    (hQ : env.certsQueryError = none)
    (hnd : (env.certTable.map (fun r => r.id)).Nodup) :
    (∀ r ∈ env.certTable, ¬ (r.batch_id = bid ∧ r.status = "pending") →
      rowById (runBatch env bid).table r.id = some r) ∧
    (env.batchUpdateError = none →
      (runBatch env bid).response = Response.ok
        ((pendingOf env bid).filter (recOk env)).length (pendingOf env bid).length bid) := by
  constructor
  · intro r hr hnp
    rw [runBatch_table env bid b tpl hL hQ, runLoop_writes]
    have hall : ∀ w ∈ (pendingOf env bid).map
        (fun c => (processRecord env tpl.template_content c).1),
        ∀ y, w = some y → y.id ≠ r.id := by
      intro w hw y hwy he
      rcases List.mem_map.mp hw with ⟨c0, hc0, rfl⟩
      have hy : y.id = c0.id := processRecord_id env tpl.template_content c0 y hwy
      have hcr : c0 = r :=
        id_inj env.certTable hnd c0 (mem_pending hc0).1 r hr (by rw [← hy, he])
      exact hnp (hcr ▸ ⟨(mem_pending hc0).2.1, (mem_pending hc0).2.2⟩)
    rw [rowById_writeBack_other r.id _ env.certTable hall]
    exact rowById_self env.certTable hnd r hr
  · intro hB
    exact runBatch_response_ok env bid b tpl hL hQ hB

/-- Claim C7 witness: in `env1`, the already-generated record 4 and the
other-batch record 5 are untouched, and the attempted total is the pending
count 3. -/
theorem claim7_witness :
    rowById (runBatch env1 7).table 4 = some wcert4 ∧
    rowById (runBatch env1 7).table 5 = some wcert5 ∧
    (runBatch env1 7).response = Response.ok 2 3 7 :=
  ⟨(claim7_pending_only_selection env1 7 wbatch wtpl rfl rfl (by decide)).1 wcert4
      (by decide) (by decide),
    (claim7_pending_only_selection env1 7 wbatch wtpl rfl rfl (by decide)).1 wcert5
      (by decide) (by decide),
    (claim7_pending_only_selection env1 7 wbatch wtpl rfl rfl (by decide)).2 rfl⟩

/-- Claim C8: fatal-error propagation and result shape. A failed
batch/template lookup makes the whole run fail with `{error: message}` and
no state change; a failed final batch update makes the run fail with
`{error: message}` while the per-record row updates already committed stay
exactly as in a run whose final update succeeds (no rollback) and no batch
row is written; otherwise the run returns
`{success: true, processed, total, batchId}` with `processed` this run's
success count and `total` the number of attempted records. -/
theorem claim8_result_shape (env : Env) (bid : Nat) :
    (∀ e, env.lookupResult = Except.error e →
      (runBatch env bid).response = Response.err e ∧
      (runBatch env bid).table = env.certTable ∧
      (runBatch env bid).finalBatch = none) ∧
    (∀ b tpl e, env.lookupResult = Except.ok (b, tpl) → env.certsQueryError = none →
      env.batchUpdateError = some e →
      (runBatch env bid).response = Response.err e ∧
      (runBatch env bid).finalBatch = none ∧
      (runBatch env bid).table = (runBatch { env with batchUpdateError := none } bid).table) ∧
    (∀ b tpl, env.lookupResult = Except.ok (b, tpl) → env.certsQueryError = none →
      env.batchUpdateError = none →
      (runBatch env bid).response = Response.ok
        ((pendingOf env bid).filter (recOk env)).length (pendingOf env bid).length bid) := by
  refine ⟨?_, ?_, ?_⟩
  · intro e hL
    rw [runBatch_err_lookup env bid e hL]
    exact ⟨rfl, rfl, rfl⟩
  · intro b tpl e hL hQ hB
    rw [runBatch_err_update env bid b tpl e hL hQ hB]
    refine ⟨rfl, rfl, ?_⟩
    rw [runBatch_table { env with batchUpdateError := none } bid b tpl hL hQ]
    show writeBack env.certTable (runLoop env tpl.template_content (pendingOf env bid)).1 = _
    rw [runLoop_env_eq env { env with batchUpdateError := none } rfl rfl rfl rfl
      tpl.template_content (pendingOf env bid)]
    rfl
  · intro b tpl hL hQ hB
    exact runBatch_response_ok env bid b tpl hL hQ hB

/-- Claim C8 witness: in `env8` the final batch update fails: the caller gets
the structured error, no batch row is written, and the committed per-record
updates equal those of the same run with a succeeding final update. -/
theorem claim8_witness :
    (runBatch env8 7).response = Response.err "batch update failed" ∧
    (runBatch env8 7).finalBatch = none ∧
    (runBatch env8 7).table = (runBatch { env8 with batchUpdateError := none } 7).table :=
  (claim8_result_shape env8 7).2.1 wbatch wtpl "batch update failed" rfl rfl rfl

/-- Claim C9: finalization frame. The closing batch update writes only
`status`, `generated_certificates` and `updated_at`: every other field of
the batch row (`id`, `user_id`, `template_id`, `batch_name`,
`total_certificates`, `batch_zip_url`, `error_message`, `created_at`) is
carried over unchanged, in every run including runs with failing records. -/
theorem claim9_finalization_frame (env : Env) (bid : Nat) (b : CertificateBatch)
    (tpl : CertificateTemplate) (hL : env.lookupResult = Except.ok (b, tpl))
    (hQ : env.certsQueryError = none) (hB : env.batchUpdateError = none) :
    ∃ b', (runBatch env bid).finalBatch = some b' ∧
      b'.id = b.id ∧ b'.user_id = b.user_id ∧ b'.template_id = b.template_id ∧
      b'.batch_name = b.batch_name ∧ b'.total_certificates = b.total_certificates ∧
      b'.batch_zip_url = b.batch_zip_url ∧ b'.error_message = b.error_message ∧
      b'.created_at = b.created_at :=
  ⟨_, runBatch_finalBatch env bid b tpl hL hQ hB, rfl, rfl, rfl, rfl, rfl, rfl, rfl, rfl⟩

/-- Claim C9 witness: in `env1` (a run with a failing record) the written
batch row keeps `total_certificates`, `batch_name` and `template_id`. -/
theorem claim9_witness :
    (runBatch env1 7).finalBatch.map (fun x => x.total_certificates) =
      some wbatch.total_certificates ∧
    (runBatch env1 7).finalBatch.map (fun x => x.batch_name) = some wbatch.batch_name ∧
    (runBatch env1 7).finalBatch.map (fun x => x.template_id) = some wbatch.template_id := by
  obtain ⟨b', hb', h1, h2, h3, h4, h5, h6, h7, h8⟩ :=
    claim9_finalization_frame env1 7 wbatch wtpl rfl rfl rfl
  rw [hb']
  refine ⟨?_, ?_, ?_⟩
  · show some b'.total_certificates = some wbatch.total_certificates
    rw [h5]
  · show some b'.batch_name = some wbatch.batch_name
    rw [h4]
  · show some b'.template_id = some wbatch.template_id
    rw [h3]

/-- Claim C10: null-data edge case. A pending record whose
`certificate_data` is null/absent is still rendered and published: the
published output is the template body verbatim (no substitution), and absent
external failures the record ends the run with status `generated` and the
content URL. -/
theorem claim10_null_data_passthrough (env : Env) (bid : Nat) (b : CertificateBatch)
    (tpl : CertificateTemplate) (c : Certificate)
    (hL : env.lookupResult = Except.ok (b, tpl)) (hQ : env.certsQueryError = none)
    (hnd : (env.certTable.map (fun r => r.id)).Nodup)
    (hc : c ∈ pendingOf env bid) (hdata : c.certificate_data = none)
    (hup : env.uploadError c.id = none) (hupd : env.updateCertError c.id = none) :
    (certFileName c, tpl.template_content) ∈ (runBatch env bid).uploads ∧
    rowById (runBatch env bid).table c.id =
      some { c with status := "generated", certificate_url := some (env.publicUrlOf c.id) } := by
  constructor
  · rw [runBatch_uploads env bid b tpl hL hQ]
    have h := runLoop_uploads_mem env tpl.template_content (pendingOf env bid) c hc hup
    rw [renderContent_none tpl.template_content c hdata] at h
    exact h
  · rw [table_row_of_pending env bid b tpl hL hQ hnd c hc,
      processRecord_success env tpl.template_content c hup hupd]

/-- Claim C10 witness: in `env1`, record 3 has no `certificate_data`; the
template body is published verbatim under its deterministic key and the
record ends generated with its URL. -/
theorem claim10_witness :
    (certFileName wcert3, wtpl.template_content) ∈ (runBatch env1 7).uploads ∧
    rowById (runBatch env1 7).table 3 =
      some { wcert3 with status := "generated", certificate_url := some (env1.publicUrlOf 3) } :=
  claim10_null_data_passthrough env1 7 wbatch wtpl wcert3 rfl rfl (by decide) (by decide)
    rfl rfl rfl

end BatchCert
